import Mathlib

/-!
Verification of the SNOT audio-effects core (Signal Graph, Macro Engine,
Modulation Matrix, and representative DSP kernels) against its
natural-language specification.

The development shallowly embeds the C++ sources:

* floating-point samples, weights and parameter values are modelled as
  rationals (`ℚ`); the two kernels whose claims are genuinely about
  trigonometric identities (`eqpCrossfade`, `hadamardMix`) are modelled
  over the reals;
* external library calls that return irrational values (`std::sin`,
  `std::pow` from libm) are passed in as uninterpreted function
  parameters where their value is irrelevant to the claim;
* the JUCE `AudioProcessorValueTreeState` (an external collaborator of
  this repository) is modelled as a finite store of named scalar
  parameters; its normalise/denormalise range conversion is an external
  bijection and is modelled as the identity on the stored value;
* C++ `while` loops are embedded with explicit fuel; out-of-bounds
  vector accesses (undefined behaviour) are modelled by an `Option`
  result.
-/

namespace SNOT

/-! ## Audio buffers

An audio buffer (`juce::AudioBuffer<float>` / `juce::dsp::AudioBlock<float>`)
is modelled as a (channel, sample)-indexed family of rational samples.  All
buffers of one processing session share the same channel count and block
size, so the bounded extent is left implicit. -/

def Buf : Type := ℕ → ℕ → ℚ

def bufZero : Buf := fun _ _ => 0

/-- Pointwise `AudioBuffer::addFrom` with a gain: `dst + gain • src`. -/
def bufAddScaled (dst : Buf) (gain : ℚ) (src : Buf) : Buf :=
  fun ch s => dst ch s + gain * src ch s

/-! ## Graph data model (`ModuleGraph.h`) -/

/-- Directed connection between two nodes of the graph
(`struct NodeConnection`). -/
structure NodeConnection where
  sourceNodeId : Int
  sourceChannel : Int
  destNodeId : Int
  destChannel : Int
  weight : ℚ
deriving DecidableEq

/-- One DSP node (`class AudioNode`): the mutable enabled flag, the
serialization type string, and the (virtual) `process` transfer function
of the concrete module. -/
structure AudioNode where
  enabled : Bool
  ntype : String
  process : Buf → Buf

/-- The node-graph state (`class ModuleGraph`): nodes stored by integer id
in a flat ordered map (here: an association list in ascending key order),
the connection list, the cached topological order, and the id counter. -/
structure ModuleGraph where
  nodes : List (Int × AudioNode)
  connections : List NodeConnection
  sortedNodeIds : List Int
  nextNodeId : Int

def nodeKeys (g : ModuleGraph) : List Int := g.nodes.map Prod.fst

def lookupNode (g : ModuleGraph) (nodeId : Int) : Option AudioNode :=
  (g.nodes.find? (fun p => p.fst == nodeId)).map Prod.snd

/-! ## Kahn topological sort (`ModuleGraph::rebuildTopologicalSort`) -/

/-- Number of connections whose destination is `k` — the in-degree
contribution accumulated by the `inDegree[c.destNodeId]++` loop. -/
def destCount (conns : List NodeConnection) (k : Int) : ℕ :=
  conns.countP (fun c => decide (c.destNodeId = k))

/-- The in-degree map after the two initialisation loops: every node key
starts at 0, then each connection increments its destination. -/
def initDeg (conns : List NodeConnection) : Int → Int :=
  conns.foldl (fun d c => Function.update d c.destNodeId (d c.destNodeId + 1))
    (fun _ => 0)

/-- Ordered insertion of a key into the sorted key list of a `std::map`
(no duplicates). -/
def insertSorted (x : Int) : List Int → List Int
  | [] => [x]
  | y :: ys =>
    if x < y then x :: y :: ys
    else if x = y then y :: ys
    else y :: insertSorted x ys

/-- Key set of the `inDegree` map: the node keys, together with every
connection destination (inserted by `inDegree[c.destNodeId]++` when
absent), in ascending order. -/
def kahnKeys (keys : List Int) (conns : List NodeConnection) : List Int :=
  conns.foldl (fun ks c => insertSorted c.destNodeId ks) keys

/-- Body of one iteration of the Kahn `while` loop for the popped node
`n`: scan all connections; for each one leaving `n`, decrement the
destination in-degree and enqueue the destination when it reaches zero. -/
def relaxEdges (conns : List NodeConnection) (n : Int) (deg : Int → Int)
    (queue : List Int) : (Int → Int) × List Int :=
  conns.foldl
    (fun dq c =>
      if c.sourceNodeId = n then
        let d2 : Int → Int := Function.update dq.1 c.destNodeId (dq.1 c.destNodeId - 1)
        if d2 c.destNodeId = 0 then (d2, dq.2 ++ [c.destNodeId]) else (d2, dq.2)
      else dq)
    (deg, queue)

/-- The Kahn `while (!queue.empty())` loop, embedded with fuel.  The fuel
passed by `rebuildTopologicalSort` always suffices (each popped id is
fresh), so the 0 case is never the reason the loop stops. -/
def kahnLoop (conns : List NodeConnection) :
    ℕ → List Int → (Int → Int) → List Int → List Int
  | 0, _, _, acc => acc.reverse
  | _ + 1, [], _, acc => acc.reverse
  | fuel + 1, n :: rest, deg, acc =>
    let dq := relaxEdges conns n deg rest
    kahnLoop conns fuel dq.2 dq.1 (n :: acc)

/-- `ModuleGraph::rebuildTopologicalSort`: Kahn's algorithm over in-degree
counts; ids whose in-degree is zero seed the FIFO queue in ascending key
order.  When a cycle prevents every id from being placed, the loop simply
stops early and the result omits the cyclic nodes. -/
def rebuildTopologicalSort (keys : List Int) (conns : List NodeConnection) :
    List Int :=
  let allKeys := kahnKeys keys conns
  let deg0 := initDeg conns
  let queue0 := allKeys.filter (fun k => deg0 k == 0)
  kahnLoop conns (allKeys.length + 1) queue0 deg0 []

/-! ## Graph mutation (`addNode` / `addConnection`) -/

def ModuleGraph.rebuild (g : ModuleGraph) : ModuleGraph :=
  { g with sortedNodeIds := rebuildTopologicalSort (nodeKeys g) g.connections }

/-- `ModuleGraph::addNode`: store the node under the fresh id
`nextNodeId` (which exceeds every existing key, so the ordered map
insertion lands at the end) and recompute the cached order. -/
def ModuleGraph.addNode (g : ModuleGraph) (node : AudioNode) : ModuleGraph :=
  ModuleGraph.rebuild
    { g with
      nodes := g.nodes ++ [(g.nextNodeId, node)]
      nextNodeId := g.nextNodeId + 1 }

/-- `ModuleGraph::addConnection`: unconditionally append the connection,
then recompute the cached order.  There is no cycle check and no
validation of the referenced ids. -/
def ModuleGraph.addConnection (g : ModuleGraph) (c : NodeConnection) : ModuleGraph :=
  ModuleGraph.rebuild { g with connections := g.connections ++ [c] }

/-- The ten default modules created by `buildDefaultGraph`, identified by
their serialization type strings.  The per-module DSP bodies are
irrelevant to the topology claims, so the transfer functions are supplied
by the environment `fs`. -/
def defaultNodeTypes : List String :=
  ["gravity_curve_filter", "spectral_warp_chorus", "pitch_smear_delay",
   "portal_reverb", "plasma_distortion", "stereo_neural_motion",
   "harmonic_808_inflator", "texture_generator", "freeze_capture",
   "mutation_engine"]

def serialConn (src dst : Int) : NodeConnection :=
  { sourceNodeId := src, sourceChannel := 0, destNodeId := dst,
    destChannel := 0, weight := 1 }

/-- `ModuleGraph::buildDefaultGraph` as run by the constructor: ten
`addNode` calls (ids 0–9) followed by the nine serial
`addConnection` calls. -/
def buildDefaultGraph (fs : String → Buf → Buf) : ModuleGraph :=
  let g0 : ModuleGraph :=
    { nodes := [], connections := [], sortedNodeIds := [], nextNodeId := 0 }
  let g1 := defaultNodeTypes.foldl
    (fun g t => g.addNode { enabled := true, ntype := t, process := fs t }) g0
  (List.range 9).foldl
    (fun g i => g.addConnection (serialConn (Int.ofNat i) (Int.ofNat i + 1))) g1

/-! ## Sequences of graph edits -/

inductive GraphOp where
  | node (n : AudioNode)
  | conn (c : NodeConnection)

def applyOp (g : ModuleGraph) : GraphOp → ModuleGraph
  | .node n => g.addNode n
  | .conn c => g.addConnection c

/-- A sequence of `addNode` / `addConnection` calls performed on a
freshly constructed `ModuleGraph` (whose constructor builds the default
graph). -/
def runOps (fs : String → Buf → Buf) (ops : List GraphOp) : ModuleGraph :=
  ops.foldl applyOp (buildDefaultGraph fs)

/-! ## Per-block execution (`ModuleGraph::processGraph`) -/

/-- Mixing loop of `processGraph` for the node `nodeId`: every connection
arriving at `nodeId` adds the source buffer, scaled by the connection
weight, into the node buffer (sequentially, reading the current buffer
contents). -/
def mixInputs (conns : List NodeConnection) (nodeId : Int)
    (bufs : Int → Buf) : Int → Buf :=
  conns.foldl
    (fun bs c =>
      if c.destNodeId = nodeId then
        Function.update bs nodeId (bufAddScaled (bs nodeId) c.weight (bs c.sourceNodeId))
      else bs)
    bufs

/-- One iteration of the `for (int nodeId : sortedNodeIds)` loop: skip the
node when it is disabled (`continue` — neither mixing nor processing
happens), otherwise mix the upstream contributions and run the node's
`process` in place. -/
def stepNode (g : ModuleGraph) (bufs : Int → Buf) (nodeId : Int) : Int → Buf :=
  match lookupNode g nodeId with
  | none => bufs
  | some node =>
    if node.enabled then
      let bufs1 := mixInputs g.connections nodeId bufs
      Function.update bufs1 nodeId (node.process (bufs1 nodeId))
    else bufs

/-- `ModuleGraph::processGraph`: clear all node buffers, copy the block
into the first scheduled node's buffer, run every scheduled node in
order, and copy the last scheduled node's buffer back out. -/
def processGraph (g : ModuleGraph) (mainBlock : Buf) : Buf :=
  if g.sortedNodeIds.isEmpty then mainBlock
  else
    let bufs0 : Int → Buf := Function.update (fun _ => bufZero) g.sortedNodeIds.headI mainBlock
    let bufs1 := g.sortedNodeIds.foldl (stepNode g) bufs0
    bufs1 g.sortedNodeIds.getLastI

/-- Reference semantics for bypass: the node `d` is removed from the
signal path (it never mixes and never processes), while the buffer-visit
order — which buffer receives the block input and which buffer is copied
back out — is kept exactly as in `processGraph`. -/
def processGraphWithout (g : ModuleGraph) (d : Int) (mainBlock : Buf) : Buf :=
  if g.sortedNodeIds.isEmpty then mainBlock
  else
    let bufs0 : Int → Buf := Function.update (fun _ => bufZero) g.sortedNodeIds.headI mainBlock
    let bufs1 := (g.sortedNodeIds.filter (fun x => x != d)).foldl (stepNode g) bufs0
    bufs1 g.sortedNodeIds.getLastI

/-! ## Serialization (`toValueTree` / `fromValueTree`)

`juce::ValueTree` is a named tree with (name, value) properties and an
ordered child list. -/

inductive VTValue where
  | str (s : String)
  | int (n : Int)
  | rat (q : ℚ)
  | bool (b : Bool)

inductive ValueTree where
  | node (vtype : String) (props : List (String × VTValue)) (children : List ValueTree)

/-- `AudioNode::toValueTree` ("type" and "enabled" properties) followed by
the "id" property that `ModuleGraph::toValueTree` appends. -/
def AudioNode.toValueTree (n : AudioNode) (id : Int) : ValueTree :=
  .node "Node" [("type", .str n.ntype), ("enabled", .bool n.enabled), ("id", .int id)] []

def connectionToValueTree (c : NodeConnection) : ValueTree :=
  .node "Connection"
    [("src", .int c.sourceNodeId), ("dst", .int c.destNodeId), ("w", .rat c.weight)] []

/-- `ModuleGraph::toValueTree`: one child per node, then one child per
connection. -/
def ModuleGraph.toValueTree (g : ModuleGraph) : ValueTree :=
  .node "ModuleGraph" []
    (g.nodes.map (fun p => AudioNode.toValueTree p.2 p.1)
      ++ g.connections.map connectionToValueTree)

/-- `ModuleGraph::fromValueTree`: the body of the source function is
empty ("Rebuild graph from saved state — implementation omitted for
brevity"), so restoring leaves the graph exactly as it was. -/
def ModuleGraph.fromValueTree (g : ModuleGraph) (_ : ValueTree) : ModuleGraph := g

/-! ## Parameter store

The JUCE `AudioProcessorValueTreeState` is an external collaborator: a
set of named scalar parameters.  `getParameter` succeeds exactly for the
known names; the host-side normalise/denormalise range conversion is an
external bijection, so a written value is observed back unchanged. -/

structure ParamStore where
  known : List String
  val : String → ℚ

/-- `param->setValueNotifyingHost (range.convertTo0to1 (v))` when
`getParameter` found the parameter, and a silent no-op otherwise. -/
def ParamStore.setParam (ps : ParamStore) (id : String) (v : ℚ) : ParamStore :=
  if id ∈ ps.known then { ps with val := Function.update ps.val id v } else ps

/-- `juce::jlimit (0.0f, 1.0f, x)`: `x < 0 ? 0 : 1 < x ? 1 : x`. -/
def clamp01 (x : ℚ) : ℚ := if x < 0 then 0 else if 1 < x then 1 else x

/-- `juce::jmap (v, 0.0f, 1.0f, lo, hi)`. -/
def jmap01 (v lo hi : ℚ) : ℚ := lo + v * (hi - lo)

/-! ## Macro engine (`MacroEngine.h`) -/

structure MacroMapping where
  paramID : String
  rangeMin : ℚ
  rangeMax : ℚ
  curve : ℚ
  bipolar : Bool
deriving DecidableEq

structure MacroSlot where
  name : String
  colour : ℕ
  mappings : List MacroMapping

structure MacroEngine where
  slots : Fin 8 → MacroSlot
  lastMacroValue : Fin 8 → ℚ

/-- Value pushed to one mapping's destination: the response curve
(`std::pow`, skipped exactly when the exponent is 1.0), then the linear
rescale into the mapping's output range.  `powF` is libm `std::pow`,
uninterpreted. -/
def macroWriteValue (powF : ℚ → ℚ → ℚ) (value : ℚ) (mp : MacroMapping) : ℚ :=
  let curved := if mp.curve = 1 then value else powF value mp.curve
  jmap01 curved mp.rangeMin mp.rangeMax

/-- The inner `for (auto& mapping : slots[m].mappings)` loop. -/
def applyMacroSlot (powF : ℚ → ℚ → ℚ) (value : ℚ) (mappings : List MacroMapping)
    (ps : ParamStore) : ParamStore :=
  mappings.foldl (fun ps mp => ps.setParam mp.paramID (macroWriteValue powF value mp)) ps

/-- Body of the `for (int m = 0; m < NUM_MACROS; ++m)` loop: skip unless
the macro value moved by at least `1e-6` since the last block; otherwise
record the new value and push every mapping of that macro. -/
def macroStep (powF : ℚ → ℚ → ℚ) (macroValues : Fin 8 → ℚ)
    (st : MacroEngine × ParamStore) (m : Fin 8) : MacroEngine × ParamStore :=
  let value := macroValues m
  if |value - st.1.lastMacroValue m| < 1 / 1000000 then st
  else
    ({ st.1 with lastMacroValue := Function.update st.1.lastMacroValue m value },
      applyMacroSlot powF value (st.1.slots m).mappings st.2)

/-- `MacroEngine::process` over the 8 macro slots.  The macro values live
in the parameter store atomics and are passed in as `macroValues`. -/
def MacroEngine.process (powF : ℚ → ℚ → ℚ) (eng : MacroEngine)
    (macroValues : Fin 8 → ℚ) (ps : ParamStore) : MacroEngine × ParamStore :=
  (List.finRange 8).foldl (macroStep powF macroValues) (eng, ps)

/-! ## Modulation matrix (`MacroEngine.h`, second half) -/

inductive ModType where
  | lfoSine
  | lfoTri
  | lfoSquare
  | lfoRandom
  | envelope
deriving DecidableEq

inductive EnvStage where
  | idle
  | atk
  | dec
  | sus
  | rel
deriving DecidableEq

structure ModSource where
  type : ModType
  rate : ℚ
  depth : ℚ
  phase : ℚ
  bpmSync : Bool
  syncDiv : ℚ
  attack : ℚ
  decay : ℚ
  sustain : ℚ
  release : ℚ
  envPhase : ℚ
  envStage : EnvStage
deriving DecidableEq

structure ModRoute where
  sourceIndex : Int
  paramID : String
  amount : ℚ
  bipolar : Bool
deriving DecidableEq

structure ModulationMatrix where
  sources : List ModSource
  routes : List ModRoute
deriving DecidableEq

/-- `ModulationMatrix::computeSourceValue`.  `sinTwoPi` is the external
libm map `p ↦ std::sin (p * 2π)`, uninterpreted. -/
def computeSourceValue (sinTwoPi : ℚ → ℚ) (src : ModSource) : ℚ :=
  match src.type with
  | .lfoSine => sinTwoPi src.phase * src.depth
  | .lfoTri => (if src.phase < 1/2 then src.phase * 4 - 1 else 3 - src.phase * 4) * src.depth
  | .lfoSquare => (if src.phase < 1/2 then (1 : ℚ) else -1) * src.depth
  | .lfoRandom => 0
  | .envelope => 0

/-- Phase advance of one non-envelope source by `rate × blockDuration`,
wrapping at 1.0. -/
def updatePhase (dt : ℚ) (src : ModSource) : ModSource :=
  if src.type = .envelope then src
  else
    let p := src.phase + src.rate * dt
    { src with phase := if p > 1 then p - 1 else p }

/-- `std::vector` indexing with a C++ `int` index: defined only inside
the bounds; `none` models the undefined behaviour of an out-of-bounds
access. -/
def vecGet? (l : List ModSource) (i : Int) : Option ModSource :=
  if 0 ≤ i then l.get? i.toNat else none

/-- Additive, clamped parameter modulation:
`setValueNotifyingHost (jlimit (0, 1, current + value * 0.01f))` when the
parameter exists, else nothing. -/
def ParamStore.modParam (ps : ParamStore) (id : String) (value : ℚ) : ParamStore :=
  if id ∈ ps.known then
    { ps with val := Function.update ps.val id (clamp01 (ps.val id + value * (1/100))) }
  else ps

/-- One iteration of the `for (auto& route : routes)` loop.  The guard
only rejects indices at or above `sources.size()`; a negative
`sourceIndex` passes the guard and reaches the vector access. -/
def routeStep (sinTwoPi : ℚ → ℚ) (sources : List ModSource)
    (acc : Option ParamStore) (route : ModRoute) : Option ParamStore :=
  match acc with
  | none => none
  | some ps =>
    if (sources.length : Int) ≤ route.sourceIndex then some ps
    else
      match vecGet? sources route.sourceIndex with
      | none => none
      | some src =>
        let value := computeSourceValue sinTwoPi src * route.amount
        some (ps.modParam route.paramID value)

def matrixRoutes (sinTwoPi : ℚ → ℚ) (sources : List ModSource)
    (routes : List ModRoute) (ps : ParamStore) : Option ParamStore :=
  routes.foldl (routeStep sinTwoPi sources) (some ps)

/-- `ModulationMatrix::process`: advance every non-envelope source phase
by `numSamples / sampleRate`, then run every route against the updated
sources. -/
def ModulationMatrix.process (sinTwoPi : ℚ → ℚ) (mm : ModulationMatrix)
    (sampleRate : ℚ) (numSamples : ℕ) (ps : ParamStore) :
    ModulationMatrix × Option ParamStore :=
  let dt := (numSamples : ℚ) / sampleRate
  let sources1 := mm.sources.map (updatePhase dt)
  ({ mm with sources := sources1 }, matrixRoutes sinTwoPi sources1 mm.routes ps)

/-- `ModulationMatrix::toValueTree` returns a childless, propertyless
tree: no source or route is persisted. -/
def ModulationMatrix.toValueTree (_ : ModulationMatrix) : ValueTree :=
  .node "ModulationMatrix" [] []

/-- `ModulationMatrix::fromValueTree` has an empty body. -/
def ModulationMatrix.fromValueTree (mm : ModulationMatrix) (_ : ValueTree) :
    ModulationMatrix := mm

/-! ## Equal-power crossfade (`AudioNode::eqpCrossfade`)

The float trigonometry is modelled over the reals. -/

noncomputable def dryGain (mix : ℝ) : ℝ := Real.cos (mix * (Real.pi / 2))

noncomputable def wetGain (mix : ℝ) : ℝ := Real.sin (mix * (Real.pi / 2))

/-- `dry * std::cos (mix * halfPi) + wet * std::sin (mix * halfPi)`. -/
noncomputable def eqpCrossfade (dry wet mix : ℝ) : ℝ :=
  dry * dryGain mix + wet * wetGain mix

/-! ## Hadamard mix (`PortalReverb::hadamardMix`)

Three in-place butterfly stages over the eight feedback-line outputs,
then scaling by the normalisation constant.  The float literal
`1.0f / 2.828427f` (commented `// 1/sqrt(8)` in the source) is modelled
by the real number it approximates, `1 / √8`. -/

noncomputable def hadamardMix (input : Fin 8 → ℝ) : Fin 8 → ℝ :=
  let t0 := input 0 + input 1
  let t1 := input 0 - input 1
  let t2 := input 2 + input 3
  let t3 := input 2 - input 3
  let t4 := input 4 + input 5
  let t5 := input 4 - input 5
  let t6 := input 6 + input 7
  let t7 := input 6 - input 7
  let u0 := t0 + t2
  let u1 := t1 + t3
  let u2 := t0 - t2
  let u3 := t1 - t3
  let u4 := t4 + t6
  let u5 := t5 + t7
  let u6 := t4 - t6
  let u7 := t5 - t7
  fun i =>
    (1 / Real.sqrt 8) *
      (match i with
       | 0 => u0 + u4
       | 1 => u1 + u5
       | 2 => u2 + u6
       | 3 => u3 + u7
       | 4 => u0 - u4
       | 5 => u1 - u5
       | 6 => u2 - u6
       | 7 => u3 - u7)

/-- Entry `(i, j)` of the 8×8 Sylvester Hadamard matrix:
`(−1) ^ (i₀j₀ + i₁j₁ + i₂j₂)` over the binary digits of the indices. -/
def hadamardEntry (i j : Fin 8) : ℝ :=
  (-1 : ℝ) ^ (i.val % 2 * (j.val % 2) + i.val / 2 % 2 * (j.val / 2 % 2)
    + i.val / 4 % 2 * (j.val / 4 % 2))

/-- The specified transform: `(1/√8) · H₈` applied to the input vector. -/
noncomputable def hadamardRef (input : Fin 8 → ℝ) : Fin 8 → ℝ :=
  fun i => (1 / Real.sqrt 8) * ∑ j, hadamardEntry i j * input j

/-! ## Predicates used by the claims -/

/-- The edge relation of the connection list. -/
def connRel (conns : List NodeConnection) (a b : Int) : Prop :=
  ∃ c ∈ conns, c.sourceNodeId = a ∧ c.destNodeId = b

/-- A connection set is acyclic when no node reaches itself through a
nonempty chain of connections. -/
def Acyclic (conns : List NodeConnection) : Prop :=
  ∀ n : Int, ¬ Relation.TransGen (connRel conns) n n

/-- `x` occurs strictly before `y` in `l`. -/
def appearsBefore (x y : Int) (l : List Int) : Prop :=
  ∃ l1 l2, l = l1 ++ l2 ∧ x ∈ l1 ∧ y ∈ l2

/-- In-degree of `k` counting only connections whose source has not yet
been output by the Kahn loop. -/
def notFromCount (conns : List NodeConnection) (acc : List Int) (k : Int) : ℕ :=
  conns.countP (fun c => decide (c.destNodeId = k ∧ c.sourceNodeId ∉ acc))

/-- Number of connections from `n` to `k`. -/
def srcDestCount (conns : List NodeConnection) (n k : Int) : ℕ :=
  conns.countP (fun c => decide (c.sourceNodeId = n ∧ c.destNodeId = k))

/-- Concrete one-mapping macro slot used by witnesses. -/
def macroDemoSlot : MacroSlot :=
  { name := "Macro 1", colour := 0,
    mappings := [{ paramID := "pr_drift", rangeMin := 1/4, rangeMax := 3/4,
                   curve := 1, bipolar := false }] }

/-- Concrete engine state used by witnesses: every slot is the demo slot
and every last macro value is 1/2. -/
def macroDemoEngine : MacroEngine :=
  { slots := fun _ => macroDemoSlot, lastMacroValue := fun _ => 1/2 }

/-- Concrete parameter store used by witnesses. -/
def macroDemoStore : ParamStore := { known := ["pr_drift"], val := fun _ => 0 }

/-- Loop invariant of the Kahn `while` loop relative to the key set:
no id is queued or output twice; queued/output ids are keys; the
in-degree map counts exactly the connections whose source has not been
output; an unprocessed key is queued exactly when that count is zero;
output ids have count zero; and every connection into an output id comes
from an id output before it. -/
def kahnInv (conns : List NodeConnection) (keys : List Int)
    (queue : List Int) (deg : Int → Int) (acc : List Int) : Prop :=
  (acc ++ queue).Nodup ∧
  (∀ x ∈ acc, x ∈ keys) ∧
  (∀ x ∈ queue, x ∈ keys) ∧
  (∀ k, deg k = (notFromCount conns acc k : Int)) ∧
  (∀ k ∈ keys, k ∉ acc → (notFromCount conns acc k = 0 ↔ k ∈ queue)) ∧
  (∀ k ∈ acc, notFromCount conns acc k = 0) ∧
  (∀ c ∈ conns, c.destNodeId ∈ acc →
    ∃ a1 a2, acc = a1 ++ a2 ∧ c.destNodeId ∈ a1 ∧ c.sourceNodeId ∈ a2)

/-- Shape of every reachable `ModuleGraph` state: node ids are exactly
`0, …, nextNodeId − 1` in ascending order, and the cached
`sortedNodeIds` is the Kahn rebuild of the current nodes and
connections. -/
def graphShape (g : ModuleGraph) : Prop :=
  (∃ nn : ℕ, nodeKeys g = (List.range nn).map (Nat.cast : ℕ → Int)
    ∧ g.nextNodeId = (nn : Int)) ∧
  g.sortedNodeIds = rebuildTopologicalSort (nodeKeys g) g.connections

/-! # Theorems -/

/-! ## C5: equal-power mix law -/

/-- C5: the equal-power dry/wet crossfade `AudioNode::eqpCrossfade`
reproduces the dry input exactly at mix = 0, reproduces the fully
processed wet signal exactly at mix = 1, and its dry and wet gains are
equal-power complementary (`cos² (mix·π/2) + sin² (mix·π/2) = 1`) at
every mix value. -/
theorem eqpCrossfade_mix_law (dry wet mix : ℝ) :
    eqpCrossfade dry wet 0 = dry ∧ eqpCrossfade dry wet 1 = wet ∧
    dryGain mix ^ 2 + wetGain mix ^ 2 = 1 := by
  refine ⟨?_, ?_, ?_⟩
  · simp [eqpCrossfade, dryGain, wetGain]
  · simp [eqpCrossfade, dryGain, wetGain, Real.cos_pi_div_two, Real.sin_pi_div_two]
  · exact Real.cos_sq_add_sin_sq (mix * (Real.pi / 2))

/-! ## C9: Hadamard mix -/

lemma finEightVal0 : (0 : Fin 8).val = 0 := rfl

lemma finEightVal1 : (1 : Fin 8).val = 1 := rfl

lemma finEightVal2 : (2 : Fin 8).val = 2 := rfl

lemma finEightVal3 : (3 : Fin 8).val = 3 := rfl

lemma finEightVal4 : (4 : Fin 8).val = 4 := rfl

lemma finEightVal5 : (5 : Fin 8).val = 5 := rfl

lemma finEightVal6 : (6 : Fin 8).val = 6 := rfl

lemma finEightVal7 : (7 : Fin 8).val = 7 := rfl

set_option maxHeartbeats 1000000 in
/-- C9: the butterfly network of `PortalReverb::hadamardMix` computes the
normalized 8×8 Hadamard transform `(1/√8)·H₈` of its input vector, and
the transform preserves the Euclidean norm (the sum of squares) of the
input. -/
theorem hadamardMix_spec (x : Fin 8 → ℝ) :
    hadamardMix x = hadamardRef x ∧
    (∑ i, hadamardMix x i ^ 2) = ∑ i, x i ^ 2 := by
  have h8 : Real.sqrt 8 ^ 2 = 8 := Real.sq_sqrt (by norm_num)
  constructor
  · funext i
    fin_cases i <;>
    · simp only [hadamardMix, hadamardRef, hadamardEntry, Fin.sum_univ_eight,
        finEightVal0, finEightVal1, finEightVal2, finEightVal3, finEightVal4,
        finEightVal5, finEightVal6, finEightVal7]
      norm_num
      ring
  · have expand : (∑ i, hadamardMix x i ^ 2)
        = (1 / Real.sqrt 8) ^ 2 * (8 * ∑ i, x i ^ 2) := by
      simp only [hadamardMix, Fin.sum_univ_eight]
      ring
    rw [expand, div_pow, one_pow, h8]
    ring

/-! ## C3: bypass semantics -/

lemma stepNode_disabled (g : ModuleGraph) (d : Int) (node : AudioNode)
    (h1 : lookupNode g d = some node) (h2 : node.enabled = false) (bufs : Int → Buf) :
    stepNode g bufs d = bufs := by
  simp [stepNode, h1, h2]

lemma foldl_stepNode_filter (g : ModuleGraph) (d : Int)
    (hid : ∀ bufs, stepNode g bufs d = bufs) :
    ∀ (l : List Int) (bufs : Int → Buf),
      l.foldl (stepNode g) bufs = (l.filter (fun x => x != d)).foldl (stepNode g) bufs := by
  intro l
  induction l with
  | nil => intro bufs; rfl
  | cons a t ih =>
    intro bufs
    by_cases ha : a = d
    · subst ha
      simp only [List.foldl_cons, List.filter_cons, bne_self_eq_false, Bool.false_eq_true,
        if_false, hid bufs]
      exact ih bufs
    · have : (a != d) = true := bne_iff_ne.mpr ha
      simp only [List.foldl_cons, List.filter_cons, this, if_true]
      exact ih (stepNode g bufs a)

/-- C3: disabling one node and processing a block gives exactly the block
obtained by processing with that node removed from the signal path (its
mixing and its `process` call never happen) while every buffer-visit
aspect of the schedule — which buffer is fed the input, the order of the
other nodes, and which buffer is copied back out — is unchanged. -/
theorem processGraph_disabled_bypass (g : ModuleGraph) (d : Int) (node : AudioNode)
    (h1 : lookupNode g d = some node) (h2 : node.enabled = false) (mainBlock : Buf) :
    processGraph g mainBlock = processGraphWithout g d mainBlock := by
  unfold processGraph processGraphWithout
  by_cases hempty : g.sortedNodeIds.isEmpty
  · simp [hempty]
  · simp only [hempty, if_false, Bool.false_eq_true]
    rw [foldl_stepNode_filter g d (stepNode_disabled g d node h1 h2)]

/-- Witness for C3 at a concrete one-node graph whose single node is
disabled. -/
theorem processGraph_disabled_bypass_witness :
    processGraph
        { nodes := [(0, { enabled := false, ntype := "portal_reverb", process := id })],
          connections := [], sortedNodeIds := [0], nextNodeId := 1 }
        bufZero
      = processGraphWithout
        { nodes := [(0, { enabled := false, ntype := "portal_reverb", process := id })],
          connections := [], sortedNodeIds := [0], nextNodeId := 1 }
        0 bufZero :=
  processGraph_disabled_bypass
    { nodes := [(0, { enabled := false, ntype := "portal_reverb", process := id })],
      connections := [], sortedNodeIds := [0], nextNodeId := 1 }
    0 { enabled := false, ntype := "portal_reverb", process := id } rfl rfl bufZero

/-! ## C1: cycle handling in `addConnection` -/

/-- An environment assigning the identity transfer function to every
module type; the topology computations never inspect it. -/
def idEnv : String → Buf → Buf := fun _ => id

/-- C1 (code bug evidence): starting from the freshly constructed default
graph (serial chain 0 → 1 → … → 9, cached order `[0, …, 9]`), calling
`addConnection` with the cycle-closing connection 1 → 0 is not rejected:
the connection is appended, and the recomputed `sortedNodeIds` becomes
empty — a schedule that silently omits all ten nodes — instead of the
previous cached order being preserved. -/
theorem cycle_truncates_schedule :
    (buildDefaultGraph idEnv).sortedNodeIds = [0, 1, 2, 3, 4, 5, 6, 7, 8, 9] ∧
    ((buildDefaultGraph idEnv).addConnection (serialConn 1 0)).connections
      = (buildDefaultGraph idEnv).connections ++ [serialConn 1 0] ∧
    ((buildDefaultGraph idEnv).addConnection (serialConn 1 0)).sortedNodeIds = [] := by
  refine ⟨?_, ?_, ?_⟩ <;> decide

/-! ## C4: serialization round trip -/

/-- C4 (code bug evidence): the round trip does not reproduce the saved
configuration.  Left: saving the default graph extended with one extra
connection 0 → 2 and restoring into a freshly constructed graph yields a
different connection set, because `ModuleGraph::fromValueTree` has an
empty body.  Right: saving a modulation matrix holding one route and
restoring into an empty one yields a different route set, because
`ModulationMatrix::toValueTree` persists nothing and its
`fromValueTree` is a no-op. -/
theorem roundTrip_not_reproduced :
    (ModuleGraph.fromValueTree (buildDefaultGraph idEnv)
        (ModuleGraph.toValueTree ((buildDefaultGraph idEnv).addConnection (serialConn 0 2)))).connections
      ≠ ((buildDefaultGraph idEnv).addConnection (serialConn 0 2)).connections ∧
    ModulationMatrix.fromValueTree { sources := [], routes := [] }
        (ModulationMatrix.toValueTree
          { sources := [], routes := [{ sourceIndex := 0, paramID := "pr_drift", amount := 1, bipolar := true }] })
      ≠ ({ sources := [], routes := [{ sourceIndex := 0, paramID := "pr_drift", amount := 1, bipolar := true }] } : ModulationMatrix) := by
  refine ⟨?_, ?_⟩ <;> decide

/-! ## Shared facts about the parameter store -/

lemma setParam_known (ps : ParamStore) (a : String) (v : ℚ) :
    (ps.setParam a v).known = ps.known := by
  unfold ParamStore.setParam
  split <;> rfl

lemma clamp01_eq_self {x : ℚ} (h0 : 0 ≤ x) (h1 : x ≤ 1) : clamp01 x = x := by
  unfold clamp01
  rw [if_neg (not_lt.mpr h0), if_neg (not_lt.mpr h1)]

lemma vecGet?_not_overflow {l : List ModSource} {i : Int} {s : ModSource}
    (h : vecGet? l i = some s) : ¬ ((l.length : Int) ≤ i) := by
  unfold vecGet? at h
  split at h
  · rename_i hi
    intro hle
    have : i.toNat < l.length := List.get?_eq_some.mp h |>.1
    omega
  · exact absurd h (by simp)

/-! ## C10: source-index guard -/

/-- C10 (counterexample to the claim as stated): a route whose
`sourceIndex` is −1 is not a valid index into an empty source list, yet
it is not skipped: the guard `sourceIndex >= sources.size()` passes it
through to the vector access, which is out of bounds (modelled `none`),
instead of leaving the parameter store untouched. -/
theorem modProcess_negative_index_counterexample :
    (ModulationMatrix.process (fun _ => 0)
        { sources := [],
          routes := [{ sourceIndex := -1, paramID := "pr_drift", amount := 1, bipolar := true }] }
        44100 512 { known := [], val := fun _ => 0 }).2 = none ∧
    (ModulationMatrix.process (fun _ => 0)
        { sources := [],
          routes := [{ sourceIndex := -1, paramID := "pr_drift", amount := 1, bipolar := true }] }
        44100 512 { known := [], val := fun _ => 0 }).2
      ≠ some { known := [], val := fun _ => 0 } :=
  ⟨rfl, fun h => Option.noConfusion h⟩

/-- C10 (amended): a route whose `sourceIndex` is at or above
`sources.size()` is skipped by `ModulationMatrix::process` without
reading the source vector or modifying any parameter; only negative
indices escape the guard. -/
theorem modProcess_index_guard (sinTwoPi : ℚ → ℚ) (mm : ModulationMatrix)
    (sr : ℚ) (n : ℕ) (ps : ParamStore)
    (h : ∀ r ∈ mm.routes, (mm.sources.length : Int) ≤ r.sourceIndex) :
    (ModulationMatrix.process sinTwoPi mm sr n ps).2 = some ps := by
  unfold ModulationMatrix.process
  simp only
  have hlen : ∀ r ∈ mm.routes,
      (((mm.sources.map (updatePhase ((n : ℚ) / sr))).length : Int)) ≤ r.sourceIndex := by
    intro r hr
    simpa using h r hr
  revert hlen
  generalize mm.sources.map (updatePhase ((n : ℚ) / sr)) = srcs
  generalize mm.routes = rs
  intro hlen
  induction rs with
  | nil => rfl
  | cons r rest ih =>
    have hr : ((srcs.length : Int)) ≤ r.sourceIndex := hlen r (by simp)
    unfold matrixRoutes at ih ⊢
    simp only [List.foldl_cons]
    rw [show routeStep sinTwoPi srcs (some ps) r = some ps by
      simp [routeStep, hr]]
    exact ih (fun r2 h2 => hlen r2 (by simp [h2]))

/-- Witness for the amended C10 guard at a concrete state. -/
theorem modProcess_index_guard_witness :
    (ModulationMatrix.process (fun _ => 0)
        { sources := [],
          routes := [{ sourceIndex := 3, paramID := "pr_drift", amount := 1, bipolar := true }] }
        44100 512 { known := ["pr_drift"], val := fun _ => 0 }).2
      = some { known := ["pr_drift"], val := fun _ => 0 } :=
  modProcess_index_guard (fun _ => 0)
    { sources := [],
      routes := [{ sourceIndex := 3, paramID := "pr_drift", amount := 1, bipolar := true }] }
    44100 512 { known := ["pr_drift"], val := fun _ => 0 }
    (by decide)

/-! ## C7: per-route parameter effect -/

/-- C7 (counterexample to the claim as stated): with one square LFO at
full depth (instantaneous value 1), route amount 1, and the destination
parameter at 0, the claim as stated predicts a new value
`clamp01 (0 + 1·1) = 1`, but the process writes `1/100`: the code scales
every contribution by the fixed factor `0.01f` before adding it. -/
theorem modProcess_route_scaling_counterexample :
    ((ModulationMatrix.process (fun _ => 0)
        { sources := [{ type := .lfoSquare, rate := 0, depth := 1, phase := 0,
                        bpmSync := false, syncDiv := 4, attack := 1/100, decay := 1/10,
                        sustain := 7/10, release := 3/10, envPhase := 0, envStage := .idle }],
          routes := [{ sourceIndex := 0, paramID := "pr_drift", amount := 1, bipolar := true }] }
        44100 512 { known := ["pr_drift"], val := fun _ => 0 }).2.map
      (fun ps => ps.val "pr_drift")) = some (1/100) ∧
    (1/100 : ℚ) ≠ clamp01 (0 + 1 * 1) := by
  constructor
  · norm_num [ModulationMatrix.process, matrixRoutes, routeStep, vecGet?, updatePhase,
      computeSourceValue, ParamStore.modParam, clamp01]
  · norm_num [clamp01]

/-- C7 (amended): for every route processed by
`ModulationMatrix::process` whose source index is in bounds and whose
destination parameter exists, the new value of the destination parameter
equals its current value plus the source's instantaneous value times the
route amount times the fixed scale `0.01`, clamped to `[0, 1]`. -/
theorem modProcess_route_effect (sinTwoPi : ℚ → ℚ) (mm : ModulationMatrix)
    (sr : ℚ) (n : ℕ) (ps ps1 : ParamStore)
    (routesPre routesPost : List ModRoute) (r : ModRoute) (src : ModSource)
    (hroutes : mm.routes = routesPre ++ r :: routesPost)
    (hpre : matrixRoutes sinTwoPi (mm.sources.map (updatePhase ((n : ℚ) / sr)))
        routesPre ps = some ps1)
    (hsrc : vecGet? (mm.sources.map (updatePhase ((n : ℚ) / sr))) r.sourceIndex = some src)
    (hknown : r.paramID ∈ ps1.known) :
    (ModulationMatrix.process sinTwoPi mm sr n ps).2
      = matrixRoutes sinTwoPi (mm.sources.map (updatePhase ((n : ℚ) / sr)))
          (routesPre ++ r :: routesPost) ps ∧
    matrixRoutes sinTwoPi (mm.sources.map (updatePhase ((n : ℚ) / sr)))
        (routesPre ++ [r]) ps
      = some { ps1 with
          val := Function.update ps1.val r.paramID
            (clamp01 (ps1.val r.paramID
              + computeSourceValue sinTwoPi src * r.amount * (1/100))) } := by
  constructor
  · rw [← hroutes]; rfl
  · unfold matrixRoutes at hpre ⊢
    rw [List.foldl_append, hpre]
    simp only [List.foldl_cons, List.foldl_nil]
    have hguard := vecGet?_not_overflow hsrc
    have hguard2 : ¬ ((mm.sources.length : Int) ≤ r.sourceIndex) := by
      simpa using hguard
    simp [routeStep, hguard2, hsrc, ParamStore.modParam, hknown]

/-- Witness for the amended C7 at a concrete matrix: one square LFO and
one route of amount 1 targeting an existing parameter. -/
theorem modProcess_route_effect_witness :
    matrixRoutes (fun _ => 0)
        (List.map (updatePhase ((512 : ℚ) / 44100))
          [{ type := .lfoSquare, rate := 0, depth := 1, phase := 0,
             bpmSync := false, syncDiv := 4, attack := 1/100, decay := 1/10,
             sustain := 7/10, release := 3/10, envPhase := 0, envStage := .idle }])
        ([] ++ [{ sourceIndex := 0, paramID := "pr_drift", amount := 1, bipolar := true }])
        { known := ["pr_drift"], val := fun _ => 0 }
      = some { known := ["pr_drift"],
               val := Function.update (fun _ => (0 : ℚ)) "pr_drift"
                 (clamp01 ((0 : ℚ)
                   + computeSourceValue (fun _ => 0)
                       (updatePhase ((512 : ℚ) / 44100)
                         { type := .lfoSquare, rate := 0, depth := 1, phase := 0,
                           bpmSync := false, syncDiv := 4, attack := 1/100, decay := 1/10,
                           sustain := 7/10, release := 3/10, envPhase := 0, envStage := .idle })
                     * (1 : ℚ) * (1/100))) } :=
  (modProcess_route_effect (fun _ => 0)
    { sources := [{ type := .lfoSquare, rate := 0, depth := 1, phase := 0,
                    bpmSync := false, syncDiv := 4, attack := 1/100, decay := 1/10,
                    sustain := 7/10, release := 3/10, envPhase := 0, envStage := .idle }],
      routes := [{ sourceIndex := 0, paramID := "pr_drift", amount := 1, bipolar := true }] }
    44100 512
    { known := ["pr_drift"], val := fun _ => 0 }
    { known := ["pr_drift"], val := fun _ => 0 }
    [] []
    { sourceIndex := 0, paramID := "pr_drift", amount := 1, bipolar := true }
    (updatePhase ((512 : ℚ) / 44100)
      { type := .lfoSquare, rate := 0, depth := 1, phase := 0,
        bpmSync := false, syncDiv := 4, attack := 1/100, decay := 1/10,
        sustain := 7/10, release := 3/10, envPhase := 0, envStage := .idle })
    rfl rfl rfl (by simp)).2

/-! ## C8: additivity of modulation routes -/

lemma routeStep_some (sinTwoPi : ℚ → ℚ) (srcs : List ModSource) (ps : ParamStore)
    (route : ModRoute) (src : ModSource)
    (hsrc : vecGet? srcs route.sourceIndex = some src)
    (hknown : route.paramID ∈ ps.known) :
    routeStep sinTwoPi srcs (some ps) route
      = some { ps with
          val := Function.update ps.val route.paramID
            (clamp01 (ps.val route.paramID
              + computeSourceValue sinTwoPi src * route.amount * (1/100))) } := by
  have hguard := vecGet?_not_overflow hsrc
  simp [routeStep, hguard, hsrc, ParamStore.modParam, hknown]

/-- C8: in one `ModulationMatrix::process` call, two routes targeting the
same destination parameter sum their contributions — when neither write
saturates the [0,1] clamp, the final value is the initial value plus both
scaled contributions — and any route whose source's instantaneous value
is 0 contributes exactly 0 to its (in-range) destination parameter,
regardless of the route amount. -/
theorem modProcess_additivity (sinTwoPi : ℚ → ℚ) (mm : ModulationMatrix)
    (sr : ℚ) (n : ℕ) (ps : ParamStore) (r1 r2 : ModRoute) (s1 s2 : ModSource) (p : String)
    (hroutes : mm.routes = [r1, r2])
    (hp1 : r1.paramID = p) (hp2 : r2.paramID = p)
    (hs1 : vecGet? (mm.sources.map (updatePhase ((n : ℚ) / sr))) r1.sourceIndex = some s1)
    (hs2 : vecGet? (mm.sources.map (updatePhase ((n : ℚ) / sr))) r2.sourceIndex = some s2)
    (hknown : p ∈ ps.known)
    (hb1 : 0 ≤ ps.val p + computeSourceValue sinTwoPi s1 * r1.amount * (1/100))
    (hb2 : ps.val p + computeSourceValue sinTwoPi s1 * r1.amount * (1/100) ≤ 1)
    (hb3 : 0 ≤ ps.val p + computeSourceValue sinTwoPi s1 * r1.amount * (1/100)
        + computeSourceValue sinTwoPi s2 * r2.amount * (1/100))
    (hb4 : ps.val p + computeSourceValue sinTwoPi s1 * r1.amount * (1/100)
        + computeSourceValue sinTwoPi s2 * r2.amount * (1/100) ≤ 1) :
    ((ModulationMatrix.process sinTwoPi mm sr n ps).2.map (fun q => q.val p))
      = some (ps.val p + computeSourceValue sinTwoPi s1 * r1.amount * (1/100)
          + computeSourceValue sinTwoPi s2 * r2.amount * (1/100)) ∧
    (∀ (sources : List ModSource) (route : ModRoute) (src : ModSource) (ps3 : ParamStore),
      vecGet? sources route.sourceIndex = some src →
      computeSourceValue sinTwoPi src = 0 →
      0 ≤ ps3.val route.paramID → ps3.val route.paramID ≤ 1 →
      routeStep sinTwoPi sources (some ps3) route = some ps3) := by
  constructor
  · have hstep : (ModulationMatrix.process sinTwoPi mm sr n ps).2
        = matrixRoutes sinTwoPi (mm.sources.map (updatePhase ((n : ℚ) / sr))) mm.routes ps :=
      rfl
    rw [hstep, hroutes]
    unfold matrixRoutes
    simp only [List.foldl_cons, List.foldl_nil]
    rw [routeStep_some sinTwoPi _ ps r1 s1 hs1 (hp1 ▸ hknown)]
    rw [routeStep_some sinTwoPi _ _ r2 s2 hs2 (hp2 ▸ hknown)]
    simp only [Option.map_some]
    rw [hp1, hp2]
    simp only [Function.update_same]
    rw [clamp01_eq_self hb1 hb2]
    rw [clamp01_eq_self hb3 hb4]
    simp
  · intro sources route src ps3 hs hzero h0 h1
    by_cases hk : route.paramID ∈ ps3.known
    · rw [routeStep_some sinTwoPi sources ps3 route src hs hk, hzero]
      rw [show ps3.val route.paramID + (0 : ℚ) * route.amount * (1/100)
            = ps3.val route.paramID from by ring]
      rw [clamp01_eq_self h0 h1, Function.update_eq_self]
    · have hguard := vecGet?_not_overflow hs
      simp [routeStep, hguard, hs, ParamStore.modParam, hk]

/-- Witness for C8: two routes of amounts 1 and 2 from one square LFO
into the same parameter starting at 1/10; the result is
1/10 + 1/100 + 2/100, and the zero-contribution fact instantiated at a
zero-depth source. -/
theorem modProcess_additivity_witness :
    (((ModulationMatrix.process (fun _ => 0)
        { sources := [{ type := .lfoSquare, rate := 0, depth := 1, phase := 0,
                        bpmSync := false, syncDiv := 4, attack := 1/100, decay := 1/10,
                        sustain := 7/10, release := 3/10, envPhase := 0, envStage := .idle }],
          routes := [{ sourceIndex := 0, paramID := "pr_drift", amount := 1, bipolar := true },
                     { sourceIndex := 0, paramID := "pr_drift", amount := 2, bipolar := true }] }
        44100 512 { known := ["pr_drift"], val := fun _ => 1/10 }).2.map
      (fun q => q.val "pr_drift"))
      = some ((1 : ℚ)/10
          + computeSourceValue (fun _ => 0)
              (updatePhase ((512 : ℚ) / 44100)
                { type := .lfoSquare, rate := 0, depth := 1, phase := 0,
                  bpmSync := false, syncDiv := 4, attack := 1/100, decay := 1/10,
                  sustain := 7/10, release := 3/10, envPhase := 0, envStage := .idle })
              * 1 * (1/100)
          + computeSourceValue (fun _ => 0)
              (updatePhase ((512 : ℚ) / 44100)
                { type := .lfoSquare, rate := 0, depth := 1, phase := 0,
                  bpmSync := false, syncDiv := 4, attack := 1/100, decay := 1/10,
                  sustain := 7/10, release := 3/10, envPhase := 0, envStage := .idle })
              * 2 * (1/100))) := by
  have h := modProcess_additivity (fun _ => 0)
    { sources := [{ type := .lfoSquare, rate := 0, depth := 1, phase := 0,
                    bpmSync := false, syncDiv := 4, attack := 1/100, decay := 1/10,
                    sustain := 7/10, release := 3/10, envPhase := 0, envStage := .idle }],
      routes := [{ sourceIndex := 0, paramID := "pr_drift", amount := 1, bipolar := true },
                 { sourceIndex := 0, paramID := "pr_drift", amount := 2, bipolar := true }] }
    44100 512 { known := ["pr_drift"], val := fun _ => 1/10 }
    { sourceIndex := 0, paramID := "pr_drift", amount := 1, bipolar := true }
    { sourceIndex := 0, paramID := "pr_drift", amount := 2, bipolar := true }
    (updatePhase ((512 : ℚ) / 44100)
      { type := .lfoSquare, rate := 0, depth := 1, phase := 0,
        bpmSync := false, syncDiv := 4, attack := 1/100, decay := 1/10,
        sustain := 7/10, release := 3/10, envPhase := 0, envStage := .idle })
    (updatePhase ((512 : ℚ) / 44100)
      { type := .lfoSquare, rate := 0, depth := 1, phase := 0,
        bpmSync := false, syncDiv := 4, attack := 1/100, decay := 1/10,
        sustain := 7/10, release := 3/10, envPhase := 0, envStage := .idle })
    "pr_drift" rfl rfl rfl rfl rfl (by simp)
    (by norm_num [computeSourceValue, updatePhase])
    (by norm_num [computeSourceValue, updatePhase])
    (by norm_num [computeSourceValue, updatePhase])
    (by norm_num [computeSourceValue, updatePhase])
  exact h.1

/-! ## C6: macro fan-out -/

lemma setParam_val_other (ps : ParamStore) (a : String) (v : ℚ) (b : String)
    (h : b ≠ a) : (ps.setParam a v).val b = ps.val b := by
  unfold ParamStore.setParam
  split
  · exact Function.update_noteq h v ps.val
  · rfl

lemma applyMacroSlot_cons (powF : ℚ → ℚ → ℚ) (value : ℚ) (q : MacroMapping)
    (rest : List MacroMapping) (ps : ParamStore) :
    applyMacroSlot powF value (q :: rest) ps
      = applyMacroSlot powF value rest
          (ps.setParam q.paramID (macroWriteValue powF value q)) := by
  simp [applyMacroSlot]

lemma applyMacroSlot_known (powF : ℚ → ℚ → ℚ) (value : ℚ) :
    ∀ (mps : List MacroMapping) (ps : ParamStore),
      (applyMacroSlot powF value mps ps).known = ps.known := by
  intro mps
  induction mps with
  | nil => intro ps; rfl
  | cons q rest ih =>
    intro ps
    rw [applyMacroSlot_cons, ih, setParam_known]

lemma applyMacroSlot_val_notMem (powF : ℚ → ℚ → ℚ) (value : ℚ) :
    ∀ (mps : List MacroMapping) (ps : ParamStore) (id : String),
      id ∉ mps.map MacroMapping.paramID →
      (applyMacroSlot powF value mps ps).val id = ps.val id := by
  intro mps
  induction mps with
  | nil => intro ps id _; rfl
  | cons q rest ih =>
    intro ps id hid
    have hq : id ≠ q.paramID := by
      intro h; exact hid (by simp [h])
    have hrest : id ∉ rest.map MacroMapping.paramID := by
      intro h; exact hid (by simp [h])
    rw [applyMacroSlot_cons, ih _ _ hrest, setParam_val_other _ _ _ _ hq]

lemma applyMacroSlot_val (powF : ℚ → ℚ → ℚ) (value : ℚ) :
    ∀ (mps : List MacroMapping) (ps : ParamStore) (mp : MacroMapping),
      mp ∈ mps →
      (mps.map MacroMapping.paramID).Nodup →
      (∀ q ∈ mps, q.paramID ∈ ps.known) →
      (applyMacroSlot powF value mps ps).val mp.paramID
        = macroWriteValue powF value mp := by
  intro mps
  induction mps with
  | nil => intro ps mp h; exact absurd h (List.not_mem_nil mp)
  | cons q rest ih =>
    intro ps mp hmem hnd hknown
    rw [List.map_cons, List.nodup_cons] at hnd
    rcases List.mem_cons.mp hmem with heq | hrest
    · subst heq
      rw [applyMacroSlot_cons,
        applyMacroSlot_val_notMem powF value rest _ _ hnd.1]
      unfold ParamStore.setParam
      rw [if_pos (hknown mp (List.mem_cons_self mp rest))]
      exact Function.update_same mp.paramID _ ps.val
    · rw [applyMacroSlot_cons]
      refine ih _ mp hrest hnd.2 ?_
      intro q2 h2
      rw [setParam_known]
      exact hknown q2 (List.mem_cons_of_mem q h2)

lemma macroStep_skip (powF : ℚ → ℚ → ℚ) (mv : Fin 8 → ℚ)
    (st : MacroEngine × ParamStore) (m : Fin 8)
    (h : |mv m - st.1.lastMacroValue m| < 1 / 1000000) :
    macroStep powF mv st m = st := by
  unfold macroStep
  exact if_pos h

lemma macroStep_go (powF : ℚ → ℚ → ℚ) (mv : Fin 8 → ℚ)
    (st : MacroEngine × ParamStore) (m : Fin 8)
    (h : ¬ (|mv m - st.1.lastMacroValue m| < 1 / 1000000)) :
    macroStep powF mv st m
      = ({ st.1 with lastMacroValue := Function.update st.1.lastMacroValue m (mv m) },
          applyMacroSlot powF (mv m) (st.1.slots m).mappings st.2) := by
  unfold macroStep
  exact if_neg h

lemma macroFold_skip (powF : ℚ → ℚ → ℚ) (mv : Fin 8 → ℚ) :
    ∀ (l : List (Fin 8)) (e : MacroEngine) (p : ParamStore),
      (∀ m2 ∈ l, |mv m2 - e.lastMacroValue m2| < 1 / 1000000) →
      l.foldl (macroStep powF mv) (e, p) = (e, p) := by
  intro l
  induction l with
  | nil => intro e p _; rfl
  | cons a rest ih =>
    intro e p h
    simp only [List.foldl_cons]
    rw [macroStep_skip powF mv (e, p) a (h a (List.mem_cons_self a rest))]
    exact ih e p (fun m2 h2 => h m2 (List.mem_cons_of_mem a h2))

/-- A `MacroEngine::process` call in which exactly the macro `m` has
moved writes exactly that macro's mappings. -/
lemma macroProcess_single (powF : ℚ → ℚ → ℚ) (eng : MacroEngine)
    (mv : Fin 8 → ℚ) (ps : ParamStore) (m : Fin 8)
    (hchanged : ¬ (|mv m - eng.lastMacroValue m| < 1 / 1000000))
    (hothers : ∀ m2, m2 ≠ m → |mv m2 - eng.lastMacroValue m2| < 1 / 1000000) :
    (MacroEngine.process powF eng mv ps).2
      = applyMacroSlot powF (mv m) (eng.slots m).mappings ps := by
  obtain ⟨l1, l2, hsplit⟩ := List.append_of_mem (List.mem_finRange m)
  have hnd : (l1 ++ m :: l2).Nodup := hsplit ▸ List.nodup_finRange 8
  have hm1 : m ∉ l1 := by
    intro hin
    exact (List.disjoint_of_nodup_append hnd) hin (List.mem_cons_self m l2)
  have hm2 : m ∉ l2 := by
    have := (List.nodup_append.mp hnd).2.1
    exact (List.nodup_cons.mp this).1
  unfold MacroEngine.process
  rw [hsplit, List.foldl_append]
  rw [macroFold_skip powF mv l1 eng ps
    (fun m2 h2 => hothers m2 (fun he => hm1 (he ▸ h2)))]
  simp only [List.foldl_cons]
  rw [macroStep_go powF mv (eng, ps) m hchanged]
  rw [macroFold_skip powF mv l2 _ _ ?_]
  intro m2 h2
  have hne : m2 ≠ m := fun he => hm2 (he ▸ h2)
  show |mv m2 - Function.update eng.lastMacroValue m (mv m) m2| < 1 / 1000000
  rw [Function.update_noteq hne]
  exact hothers m2 hne

/-- C6: when every mapping of macro `m` has curve exponent 1 and the
macro value alone has moved, a `MacroEngine::process` call after the
macro changed to 1 writes each mapped destination parameter to that
mapping's `rangeMax`, and after the macro changed to 0 writes each
mapped destination parameter to that mapping's `rangeMin` (destinations
taken distinct and present in the store). -/
theorem macroEngine_fanout (powF : ℚ → ℚ → ℚ) (eng : MacroEngine) (m : Fin 8)
    (mv1 mv0 : Fin 8 → ℚ) (ps : ParamStore)
    (hcurve : ∀ mp ∈ (eng.slots m).mappings, mp.curve = 1)
    (hnodup : (((eng.slots m).mappings).map MacroMapping.paramID).Nodup)
    (hknown : ∀ mp ∈ (eng.slots m).mappings, mp.paramID ∈ ps.known)
    (hm1 : mv1 m = 1)
    (hchanged1 : 1 / 1000000 ≤ |mv1 m - eng.lastMacroValue m|)
    (hothers1 : ∀ m2, m2 ≠ m → |mv1 m2 - eng.lastMacroValue m2| < 1 / 1000000)
    (hm0 : mv0 m = 0)
    (hchanged0 : 1 / 1000000 ≤ |mv0 m - eng.lastMacroValue m|)
    (hothers0 : ∀ m2, m2 ≠ m → |mv0 m2 - eng.lastMacroValue m2| < 1 / 1000000) :
    (∀ mp ∈ (eng.slots m).mappings,
      (MacroEngine.process powF eng mv1 ps).2.val mp.paramID = mp.rangeMax) ∧
    (∀ mp ∈ (eng.slots m).mappings,
      (MacroEngine.process powF eng mv0 ps).2.val mp.paramID = mp.rangeMin) := by
  constructor
  · intro mp hmp
    rw [macroProcess_single powF eng mv1 ps m (not_lt.mpr hchanged1) hothers1]
    rw [applyMacroSlot_val powF (mv1 m) _ ps mp hmp hnodup hknown]
    rw [hm1]
    unfold macroWriteValue jmap01
    rw [if_pos (hcurve mp hmp)]
    ring
  · intro mp hmp
    rw [macroProcess_single powF eng mv0 ps m (not_lt.mpr hchanged0) hothers0]
    rw [applyMacroSlot_val powF (mv0 m) _ ps mp hmp hnodup hknown]
    rw [hm0]
    unfold macroWriteValue jmap01
    rw [if_pos (hcurve mp hmp)]
    ring

/-- Witness for C6: one mapping with curve 1 and range [1/4, 3/4] on
macro 0; the macro moves from 1/2 to 1 (respectively 0) while the other
macros hold still. -/
theorem macroEngine_fanout_witness :
    (∀ mp ∈ (macroDemoEngine.slots 0).mappings,
      (MacroEngine.process (fun _ _ => 0) macroDemoEngine
          (fun m2 => if m2 = 0 then 1 else 1/2) macroDemoStore).2.val mp.paramID
        = mp.rangeMax) ∧
    (∀ mp ∈ (macroDemoEngine.slots 0).mappings,
      (MacroEngine.process (fun _ _ => 0) macroDemoEngine
          (fun m2 => if m2 = 0 then 0 else 1/2) macroDemoStore).2.val mp.paramID
        = mp.rangeMin) :=
  macroEngine_fanout (fun _ _ => 0) macroDemoEngine 0
    (fun m2 => if m2 = 0 then 1 else 1/2)
    (fun m2 => if m2 = 0 then 0 else 1/2)
    macroDemoStore
    (by intro mp h; simp [macroDemoEngine, macroDemoSlot] at h; rw [h])
    (by simp [macroDemoEngine, macroDemoSlot])
    (by intro mp h; simp [macroDemoEngine, macroDemoSlot] at h; rw [h]
        simp [macroDemoStore])
    (by norm_num)
    (by norm_num [macroDemoEngine, abs_of_pos])
    (by intro m2 h; simp [macroDemoEngine, h])
    (by norm_num)
    (by norm_num [macroDemoEngine, abs_of_pos])
    (by intro m2 h; simp [macroDemoEngine, h])

/-! ## C2: Kahn topological-sort correctness -/

lemma destCount_nil (k : Int) : destCount [] k = 0 := rfl

lemma initDeg_go (conns : List NodeConnection) :
    ∀ (d : Int → Int) (k : Int),
      (conns.foldl
        (fun d c => Function.update d c.destNodeId (d c.destNodeId + 1)) d) k
        = d k + destCount conns k := by
  induction conns with
  | nil => intro d k; simp [destCount]
  | cons c cs ih =>
    intro d k
    simp only [List.foldl_cons]
    rw [ih]
    unfold destCount
    rw [List.countP_cons]
    by_cases h : c.destNodeId = k
    · subst h
      rw [Function.update_same]
      simp [destCount]
      omega
    · rw [Function.update_noteq (Ne.symm h)]
      simp [destCount, h]

lemma initDeg_eq (conns : List NodeConnection) (k : Int) :
    initDeg conns k = (destCount conns k : Int) := by
  unfold initDeg
  rw [initDeg_go]
  simp

lemma notFromCount_nil_acc (conns : List NodeConnection) (k : Int) :
    notFromCount conns [] k = destCount conns k := by
  unfold notFromCount destCount
  refine List.countP_congr ?_
  intro c _
  simp

lemma count_head_split (dst k src n : Int) (acc : List Int) (hn : n ∉ acc) :
    (if dst = k ∧ src ∉ n :: acc then (1 : ℕ) else 0)
      + (if src = n ∧ dst = k then 1 else 0)
      = (if dst = k ∧ src ∉ acc then 1 else 0) := by
  by_cases h1 : dst = k
  · by_cases h2 : src = n
    · subst h2
      simp [h1, hn]
    · by_cases h3 : src ∈ acc
      · simp [h1, h2, h3]
      · have h4 : src ∉ n :: acc := by simp [h2, h3]
        simp [h1, h2, h3, h4]
  · simp [h1]

lemma notFromCount_cons (conns : List NodeConnection) (acc : List Int)
    (n k : Int) (hn : n ∉ acc) :
    notFromCount conns (n :: acc) k + srcDestCount conns n k
      = notFromCount conns acc k := by
  unfold notFromCount srcDestCount
  induction conns with
  | nil => rfl
  | cons c cs ih =>
    rw [List.countP_cons, List.countP_cons, List.countP_cons]
    simp only [decide_eq_true_eq] at ih ⊢
    have hh := count_head_split c.destNodeId k c.sourceNodeId n acc hn
    omega

lemma notFromCount_le_cons (conns : List NodeConnection) (acc : List Int)
    (n k : Int) :
    notFromCount conns (n :: acc) k ≤ notFromCount conns acc k := by
  unfold notFromCount
  refine List.countP_mono_left ?_
  intro c _ h
  simp only [decide_eq_true_eq] at h ⊢
  exact ⟨h.1, fun hm => h.2 (List.mem_cons_of_mem n hm)⟩

lemma srcDest_le_notFrom (conns : List NodeConnection) (acc : List Int)
    (n k : Int) (hn : n ∉ acc) :
    srcDestCount conns n k ≤ notFromCount conns acc k := by
  unfold srcDestCount notFromCount
  refine List.countP_mono_left ?_
  intro c _ h
  simp only [decide_eq_true_eq] at h ⊢
  exact ⟨h.2, fun hm => hn (h.1 ▸ hm)⟩

lemma srcDestCount_cons (c : NodeConnection) (cs : List NodeConnection)
    (n k : Int) :
    srcDestCount (c :: cs) n k
      = srcDestCount cs n k
        + (if c.sourceNodeId = n ∧ c.destNodeId = k then 1 else 0) := by
  unfold srcDestCount
  rw [List.countP_cons]
  by_cases h : c.sourceNodeId = n ∧ c.destNodeId = k <;> simp [h]

lemma relaxEdges_cons (c : NodeConnection) (cs : List NodeConnection)
    (n : Int) (deg : Int → Int) (queue : List Int) :
    relaxEdges (c :: cs) n deg queue =
      if c.sourceNodeId = n then
        (if Function.update deg c.destNodeId (deg c.destNodeId - 1) c.destNodeId = 0 then
          relaxEdges cs n (Function.update deg c.destNodeId (deg c.destNodeId - 1))
            (queue ++ [c.destNodeId])
        else
          relaxEdges cs n (Function.update deg c.destNodeId (deg c.destNodeId - 1)) queue)
      else relaxEdges cs n deg queue := by
  by_cases h1 : c.sourceNodeId = n
  · by_cases h2 :
      Function.update deg c.destNodeId (deg c.destNodeId - 1) c.destNodeId = 0 <;>
      · rw [Function.update_same] at h2
        simp [relaxEdges, h1, h2]
  · simp [relaxEdges, h1]

lemma relaxEdges_spec (n : Int) :
    ∀ (conns : List NodeConnection) (deg : Int → Int) (queue : List Int),
      (∀ k, (srcDestCount conns n k : Int) ≤ deg k) →
      ((relaxEdges conns n deg queue).1
          = fun k => deg k - srcDestCount conns n k) ∧
      (∃ pushed : List Int,
        (relaxEdges conns n deg queue).2 = queue ++ pushed ∧
        pushed.Nodup ∧
        (∀ k, k ∈ pushed
          ↔ (0 < srcDestCount conns n k ∧ deg k = (srcDestCount conns n k : Int)))) := by
  intro conns
  induction conns with
  | nil =>
    intro deg queue _
    refine ⟨by funext k; simp [relaxEdges, srcDestCount], [], by simp [relaxEdges], by simp, ?_⟩
    intro k
    simp [srcDestCount]
  | cons c cs ih =>
    intro deg queue hdeg
    by_cases hsrc : c.sourceNodeId = n
    · have hcnt : ∀ k, srcDestCount (c :: cs) n k
          = srcDestCount cs n k + (if c.destNodeId = k then 1 else 0) := by
        intro k
        rw [srcDestCount_cons]
        by_cases h : c.destNodeId = k <;> simp [h, hsrc]
      have hcnt0 : srcDestCount (c :: cs) n c.destNodeId = srcDestCount cs n c.destNodeId + 1 := by
        rw [hcnt c.destNodeId, if_pos rfl]
      have hdeg2 : ∀ k, (srcDestCount cs n k : Int)
          ≤ Function.update deg c.destNodeId (deg c.destNodeId - 1) k := by
        intro k
        by_cases h : k = c.destNodeId
        · rw [h, Function.update_same]
          have h1 := hdeg c.destNodeId
          rw [hcnt0] at h1
          push_cast at h1
          omega
        · rw [Function.update_noteq h]
          have h1 := hdeg k
          rw [hcnt k] at h1
          omega
      rw [relaxEdges_cons, if_pos hsrc]
      by_cases hzero : Function.update deg c.destNodeId (deg c.destNodeId - 1) c.destNodeId = 0
      · rw [if_pos hzero]
        obtain ⟨hd, pushed, hq, hnd, hmem⟩ := ih _ (queue ++ [c.destNodeId]) hdeg2
        rw [Function.update_same] at hzero
        have hdegc.destNodeId : deg c.destNodeId = 1 := by omega
        have hm0 : srcDestCount (c :: cs) n c.destNodeId = 1 := by
          have h1 := hdeg c.destNodeId
          rw [hdegc.destNodeId] at h1
          omega
        constructor
        · rw [hd]
          funext k
          by_cases h : k = c.destNodeId
          · rw [h, Function.update_same, hcnt0]
            push_cast
            omega
          · rw [Function.update_noteq h, hcnt k, if_neg (fun hh => h hh.symm)]
            push_cast
            omega
        · refine ⟨c.destNodeId :: pushed, by simpa using hq, ?_, ?_⟩
          · refine List.nodup_cons.mpr ⟨?_, hnd⟩
            intro hin
            have h2 := (hmem c.destNodeId).mp hin
            rw [Function.update_same] at h2
            omega
          · intro k
            by_cases h : k = c.destNodeId
            · rw [h]
              simp only [List.mem_cons, true_or, true_iff]
              rw [hm0, hdegc.destNodeId]
              norm_num
            · have hiff := hmem k
              rw [Function.update_noteq h] at hiff
              rw [hcnt k, if_neg (fun hh => h hh.symm)]
              simp only [List.mem_cons]
              constructor
              · intro hin
                rcases hin with he | htl
                · exact absurd he h
                · have h2 := hiff.mp htl
                  push_cast
                  omega
              · intro hrt
                refine Or.inr (hiff.mpr ?_)
                push_cast at hrt
                omega
      · rw [if_neg hzero]
        obtain ⟨hd, pushed, hq, hnd, hmem⟩ := ih _ queue hdeg2
        rw [Function.update_same] at hzero
        constructor
        · rw [hd]
          funext k
          by_cases h : k = c.destNodeId
          · rw [h, Function.update_same, hcnt0]
            push_cast
            omega
          · rw [Function.update_noteq h, hcnt k, if_neg (fun hh => h hh.symm)]
            push_cast
            omega
        · refine ⟨pushed, hq, hnd, ?_⟩
          intro k
          by_cases h : k = c.destNodeId
          · rw [h]
            have hiff := hmem c.destNodeId
            rw [Function.update_same] at hiff
            rw [hcnt0]
            have hle := hdeg c.destNodeId
            rw [hcnt0] at hle
            push_cast at hle ⊢
            constructor
            · intro hin
              have h2 := hiff.mp hin
              omega
            · intro hrt
              refine hiff.mpr ?_
              omega
          · have hiff := hmem k
            rw [Function.update_noteq h] at hiff
            rw [hcnt k, if_neg (fun hh => h hh.symm)]
            simpa using hiff
    · have hcnt : ∀ k, srcDestCount (c :: cs) n k = srcDestCount cs n k := by
        intro k
        rw [srcDestCount_cons]
        simp [hsrc]
      rw [relaxEdges_cons, if_neg hsrc]
      obtain ⟨hd, pushed, hq, hnd, hmem⟩ :=
        ih deg queue (fun k => (hcnt k) ▸ hdeg k)
      refine ⟨?_, pushed, hq, hnd, ?_⟩
      · rw [hd]
        funext k
        rw [hcnt k]
      · intro k
        rw [hcnt k]
        exact hmem k

lemma kahnInv_step (conns : List NodeConnection) (keys : List Int)
    (hvalid : ∀ c ∈ conns, c.sourceNodeId ∈ keys ∧ c.destNodeId ∈ keys)
    (n : Int) (rest : List Int) (deg : Int → Int) (acc : List Int)
    (hinv : kahnInv conns keys (n :: rest) deg acc) :
    kahnInv conns keys (relaxEdges conns n deg rest).2
      (relaxEdges conns n deg rest).1 (n :: acc) := by
  obtain ⟨hnd, haccK, hqK, hdegEq, hqIff, haccZero, horder⟩ := hinv
  have hdisj : ∀ a ∈ acc, a ∉ n :: rest := fun a ha hb =>
    (List.disjoint_of_nodup_append hnd) ha hb
  have hnacc : n ∉ acc := fun hin => hdisj n hin (List.mem_cons_self n rest)
  have hnkeys : n ∈ keys := hqK n (List.mem_cons_self n rest)
  have hn0 : notFromCount conns acc n = 0 :=
    (hqIff n hnkeys hnacc).mpr (List.mem_cons_self n rest)
  have hnd2 : (n :: (acc ++ rest)).Nodup := List.perm_middle.nodup hnd
  have hnrest : n ∉ rest := fun h =>
    (List.nodup_cons.mp hnd2).1 (List.mem_append_right acc h)
  have haccrest : (acc ++ rest).Nodup := (List.nodup_cons.mp hnd2).2
  have hpre : ∀ k, (srcDestCount conns n k : Int) ≤ deg k := by
    intro k
    rw [hdegEq k]
    exact_mod_cast srcDest_le_notFrom conns acc n k hnacc
  obtain ⟨hd, pushed, hq2, hndp, hpmem⟩ := relaxEdges_spec n conns deg rest hpre
  have hsdle : ∀ k, srcDestCount conns n k ≤ notFromCount conns acc k :=
    fun k => srcDest_le_notFrom conns acc n k hnacc
  have hnfc : ∀ k, notFromCount conns (n :: acc) k
      = notFromCount conns acc k - srcDestCount conns n k := by
    intro k
    have := notFromCount_cons conns acc n k hnacc
    omega
  have hpmem2 : ∀ k, k ∈ pushed ↔
      (0 < srcDestCount conns n k
        ∧ notFromCount conns acc k = srcDestCount conns n k) := by
    intro k
    rw [hpmem k, hdegEq k]
    constructor
    · rintro ⟨h1, h2⟩
      exact ⟨h1, by exact_mod_cast h2⟩
    · rintro ⟨h1, h2⟩
      exact ⟨h1, by exact_mod_cast h2⟩
  have hpush_n : n ∉ pushed := by
    intro hin
    have h1 := (hpmem2 n).mp hin
    omega
  have hpush_acc : ∀ k ∈ pushed, k ∉ acc := by
    intro k hk hka
    have h1 := (hpmem2 k).mp hk
    have h2 := haccZero k hka
    omega
  have hpush_rest : ∀ k ∈ pushed, k ∉ rest := by
    intro k hk hkr
    have hkq : k ∈ n :: rest := List.mem_cons_of_mem n hkr
    have hkkeys : k ∈ keys := hqK k hkq
    have hknacc : k ∉ acc := by
      intro hka
      exact hdisj k hka hkq
    have h0 : notFromCount conns acc k = 0 := (hqIff k hkkeys hknacc).mpr hkq
    have h1 := (hpmem2 k).mp hk
    omega
  have hpushK : ∀ k ∈ pushed, k ∈ keys := by
    intro k hk
    have h2 : 0 < srcDestCount conns n k := ((hpmem2 k).mp hk).1
    unfold srcDestCount at h2
    rw [List.countP_pos_iff] at h2
    obtain ⟨c, hc, hpc⟩ := h2
    simp only [decide_eq_true_eq] at hpc
    exact hpc.2 ▸ (hvalid c hc).2
  rw [hq2]
  refine ⟨?_, ?_, ?_, ?_, ?_, ?_, ?_⟩
  · show (n :: (acc ++ (rest ++ pushed))).Nodup
    rw [List.nodup_cons]
    constructor
    · intro hin
      rcases List.mem_append.mp hin with h | h
      · exact hnacc h
      · rcases List.mem_append.mp h with h2 | h2
        · exact hnrest h2
        · exact hpush_n h2
    · rw [← List.append_assoc]
      rw [List.nodup_append]
      refine ⟨haccrest, hndp, ?_⟩
      intro a ha hp
      rcases List.mem_append.mp ha with h | h
      · exact hpush_acc a hp h
      · exact hpush_rest a hp h
  · intro x hx
    rcases List.mem_cons.mp hx with h | h
    · exact h ▸ hnkeys
    · exact haccK x h
  · intro x hx
    rcases List.mem_append.mp hx with h | h
    · exact hqK x (List.mem_cons_of_mem n h)
    · exact hpushK x h
  · intro k
    rw [hd]
    simp only
    rw [hdegEq k, hnfc k]
    have := hsdle k
    omega
  · intro k hk hkn
    have hkacc : k ∉ acc := fun h => hkn (List.mem_cons_of_mem n h)
    have hknn : k ≠ n := fun h => hkn (h ▸ List.mem_cons_self n acc)
    rw [List.mem_append]
    constructor
    · intro h0
      rw [hnfc k] at h0
      by_cases hs : 0 < srcDestCount conns n k
      · right
        rw [hpmem2 k]
        have := hsdle k
        exact ⟨hs, by omega⟩
      · left
        have h1 : notFromCount conns acc k = 0 := by omega
        have h2 : k ∈ n :: rest := (hqIff k hk hkacc).mp h1
        rcases List.mem_cons.mp h2 with h3 | h3
        · exact absurd h3 hknn
        · exact h3
    · intro h
      rw [hnfc k]
      rcases h with hr | hp
      · have h2 : k ∈ n :: rest := List.mem_cons_of_mem n hr
        have h0 : notFromCount conns acc k = 0 := (hqIff k hk hkacc).mpr h2
        have := hsdle k
        omega
      · have h1 := (hpmem2 k).mp hp
        omega
  · intro k hk
    rcases List.mem_cons.mp hk with h | h
    · subst h
      have := notFromCount_le_cons conns acc k k
      omega
    · have h1 := haccZero k h
      have := notFromCount_le_cons conns acc n k
      omega
  · intro c hc hdest
    rcases List.mem_cons.mp hdest with he | hacc2
    · have hsrc_acc : c.sourceNodeId ∈ acc := by
        by_contra hno
        have h2 := List.countP_eq_zero.mp hn0 c hc
        simp only [decide_eq_true_eq] at h2
        exact h2 ⟨he, hno⟩
      exact ⟨[n], acc, rfl, he ▸ List.mem_singleton_self n, hsrc_acc⟩
    · obtain ⟨a1, a2, hsp, hd1, hs2⟩ := horder c hc hacc2
      exact ⟨n :: a1, a2, by rw [hsp]; rfl, List.mem_cons_of_mem n hd1, hs2⟩

/-- In a finite nonempty set in which every element has a predecessor
inside the set, some element reaches itself: the pigeonhole argument
behind "a graph whose nodes all have positive remaining in-degree
contains a cycle". -/
lemma exists_transGen_self (S : Finset Int) (r : Int → Int → Prop)
    (hne : S.Nonempty) (h : ∀ x ∈ S, ∃ y ∈ S, r y x) :
    ∃ z, Relation.TransGen r z z := by
  classical
  have hf : ∀ x : {a // a ∈ S}, ∃ y : {a // a ∈ S}, r y.val x.val := by
    rintro ⟨x, hx⟩
    obtain ⟨y, hy, hr⟩ := h x hx
    exact ⟨⟨y, hy⟩, hr⟩
  choose f hfr using hf
  obtain ⟨x0, hx0⟩ := hne
  let seq : ℕ → {a // a ∈ S} := fun m => f^[m] ⟨x0, hx0⟩
  have hchain : ∀ (a d : ℕ), Relation.TransGen r (seq (a + d + 1)).val (seq a).val := by
    intro a d
    induction d with
    | zero =>
      have : seq (a + 1) = f (seq a) := Function.iterate_succ_apply' f a _
      rw [this]
      exact Relation.TransGen.single (hfr (seq a))
    | succ d ih =>
      have hstep : seq (a + (d + 1) + 1) = f (seq (a + d + 1)) := by
        show f^[a + d + 1 + 1] _ = _
        rw [Function.iterate_succ_apply' f (a + d + 1) _]
      rw [hstep]
      exact Relation.TransGen.head (hfr (seq (a + d + 1))) ih
  obtain ⟨i, j, hij, heq⟩ := Finite.exists_ne_map_eq_of_infinite seq
  rcases lt_or_gt_of_ne hij with hlt | hgt
  · refine ⟨(seq j).val, ?_⟩
    have hcy : Relation.TransGen r (seq (i + (j - i - 1) + 1)).val (seq i).val :=
      hchain i (j - i - 1)
    rw [show i + (j - i - 1) + 1 = j from by omega, heq] at hcy
    exact hcy
  · refine ⟨(seq i).val, ?_⟩
    have hcy : Relation.TransGen r (seq (j + (i - j - 1) + 1)).val (seq j).val :=
      hchain j (i - j - 1)
    rw [show j + (i - j - 1) + 1 = i from by omega, ← heq] at hcy
    exact hcy

/-- If the loop state covers all keys, the output is a permutation of
the keys in topological order. -/
lemma kahnDone (conns : List NodeConnection) (keys : List Int)
    (hkeysnd : keys.Nodup)
    (hvalid : ∀ c ∈ conns, c.sourceNodeId ∈ keys ∧ c.destNodeId ∈ keys)
    (queue : List Int) (deg : Int → Int) (acc : List Int)
    (hinv : kahnInv conns keys queue deg acc)
    (hcover : ∀ k ∈ keys, k ∈ acc) :
    acc.reverse.Perm keys ∧
    (∀ c ∈ conns, appearsBefore c.sourceNodeId c.destNodeId acc.reverse) := by
  obtain ⟨hnd, haccK, _, _, _, _, horder⟩ := hinv
  have haccnd : acc.Nodup := (List.nodup_append.mp hnd).1
  have hsub : List.Subperm acc keys := List.subperm_of_subset haccnd haccK
  have hsub2 : List.Subperm keys acc := List.subperm_of_subset hkeysnd hcover
  have hperm : acc.Perm keys :=
    List.Subperm.perm_of_length_le hsub (List.Subperm.length_le hsub2)
  constructor
  · exact (List.reverse_perm acc).trans hperm
  · intro c hc
    have hdest : c.destNodeId ∈ acc := hcover _ (hvalid c hc).2
    obtain ⟨a1, a2, hsp, hd1, hs2⟩ := horder c hc hdest
    refine ⟨a2.reverse, a1.reverse, ?_, ?_, ?_⟩
    · rw [hsp, List.reverse_append]
    · exact List.mem_reverse.mpr hs2
    · exact List.mem_reverse.mpr hd1

lemma kahnLoop_spec (conns : List NodeConnection) (keys : List Int)
    (hkeysnd : keys.Nodup)
    (hvalid : ∀ c ∈ conns, c.sourceNodeId ∈ keys ∧ c.destNodeId ∈ keys)
    (hacyc : Acyclic conns) :
    ∀ (fuel : ℕ) (queue : List Int) (deg : Int → Int) (acc : List Int),
      kahnInv conns keys queue deg acc →
      keys.length ≤ fuel + acc.length →
      (kahnLoop conns fuel queue deg acc).Perm keys ∧
      (∀ c ∈ conns, appearsBefore c.sourceNodeId c.destNodeId
        (kahnLoop conns fuel queue deg acc)) := by
  intro fuel
  induction fuel with
  | zero =>
    intro queue deg acc hinv hlen
    have h0 : kahnLoop conns 0 queue deg acc = acc.reverse := rfl
    rw [h0]
    have haccnd : acc.Nodup := (List.nodup_append.mp hinv.1).1
    have hsub : List.Subperm acc keys :=
      List.subperm_of_subset haccnd hinv.2.1
    have hperm : acc.Perm keys :=
      List.Subperm.perm_of_length_le hsub (by omega)
    exact kahnDone conns keys hkeysnd hvalid queue deg acc hinv
      (fun k hk => hperm.mem_iff.mpr hk)
  | succ fuel ih =>
    intro queue deg acc hinv hlen
    cases queue with
    | nil =>
      have h0 : kahnLoop conns (fuel + 1) [] deg acc = acc.reverse := rfl
      rw [h0]
      have hcover : ∀ k ∈ keys, k ∈ acc := by
        by_contra hnc
        push_neg at hnc
        obtain ⟨k0, hk0, hk0acc⟩ := hnc
        classical
        have hS : ∀ x, x ∈ keys.toFinset.filter (fun x => x ∉ acc)
            ↔ (x ∈ keys ∧ x ∉ acc) := by
          intro x
          simp [List.mem_toFinset]
        have hne : (keys.toFinset.filter (fun x => x ∉ acc)).Nonempty :=
          ⟨k0, (hS k0).mpr ⟨hk0, hk0acc⟩⟩
        have hpred : ∀ x ∈ keys.toFinset.filter (fun x => x ∉ acc),
            ∃ y ∈ keys.toFinset.filter (fun x => x ∉ acc), connRel conns y x := by
          intro x hx
          obtain ⟨hxk, hxacc⟩ := (hS x).mp hx
          have hne0 : notFromCount conns acc x ≠ 0 := by
            intro hzz
            have hmem := (hinv.2.2.2.2.1 x hxk hxacc).mp hzz
            simp at hmem
          have hpos : 0 < notFromCount conns acc x := Nat.pos_of_ne_zero hne0
          unfold notFromCount at hpos
          rw [List.countP_pos_iff] at hpos
          obtain ⟨c, hc, hpc⟩ := hpos
          simp only [decide_eq_true_eq] at hpc
          refine ⟨c.sourceNodeId, (hS _).mpr ⟨(hvalid c hc).1, hpc.2⟩, ?_⟩
          exact ⟨c, hc, rfl, hpc.1⟩
        obtain ⟨z, hz⟩ :=
          exists_transGen_self (keys.toFinset.filter (fun x => x ∉ acc))
            (connRel conns) hne hpred
        exact hacyc z hz
      exact kahnDone conns keys hkeysnd hvalid [] deg acc hinv hcover
    | cons nh rest =>
      have hstep : kahnLoop conns (fuel + 1) (nh :: rest) deg acc
          = kahnLoop conns fuel (relaxEdges conns nh deg rest).2
              (relaxEdges conns nh deg rest).1 (nh :: acc) := rfl
      rw [hstep]
      refine ih _ _ _ (kahnInv_step conns keys hvalid nh rest deg acc hinv) ?_
      simp only [List.length_cons]
      omega

lemma insertSorted_mem (x : Int) :
    ∀ (l : List Int), l.Pairwise (· < ·) → x ∈ l → insertSorted x l = l := by
  intro l
  induction l with
  | nil => intro _ h; exact absurd h (List.not_mem_nil x)
  | cons y ys ih =>
    intro hp hx
    unfold insertSorted
    rcases List.mem_cons.mp hx with he | hys
    · rw [if_neg (by rw [he]; exact lt_irrefl y), if_pos he]
    · have hylt : y < x := (List.pairwise_cons.mp hp).1 x hys
      rw [if_neg (by omega), if_neg (by omega),
        ih (List.pairwise_cons.mp hp).2 hys]

lemma kahnKeys_eq (keys : List Int) :
    ∀ (conns : List NodeConnection), keys.Pairwise (· < ·) →
      (∀ c ∈ conns, c.destNodeId ∈ keys) → kahnKeys keys conns = keys := by
  have hgen : ∀ (conns : List NodeConnection) (l : List Int),
      l.Pairwise (· < ·) → (∀ c ∈ conns, c.destNodeId ∈ l) →
      conns.foldl (fun ks c => insertSorted c.destNodeId ks) l = l := by
    intro conns
    induction conns with
    | nil => intro l _ _; rfl
    | cons c cs ih =>
      intro l hp hv
      simp only [List.foldl_cons]
      rw [insertSorted_mem c.destNodeId l hp (hv c (List.mem_cons_self c cs))]
      exact ih l hp (fun c2 h2 => hv c2 (List.mem_cons_of_mem c h2))
  intro conns hp hv
  exact hgen conns keys hp hv

lemma kahnInv_init (conns : List NodeConnection) (keys : List Int)
    (hnd : keys.Nodup) :
    kahnInv conns keys (keys.filter (fun k => initDeg conns k == 0))
      (initDeg conns) [] := by
  refine ⟨?_, ?_, ?_, ?_, ?_, ?_, ?_⟩
  · simpa using hnd.filter (fun k => initDeg conns k == 0)
  · intro x hx
    exact absurd hx (List.not_mem_nil x)
  · intro x hx
    exact List.mem_of_mem_filter hx
  · intro k
    rw [initDeg_eq, notFromCount_nil_acc]
  · intro k hk _
    rw [List.mem_filter]
    constructor
    · intro h0
      refine ⟨hk, ?_⟩
      rw [beq_iff_eq, initDeg_eq, notFromCount_nil_acc] at *
      exact_mod_cast congrArg (Nat.cast : ℕ → Int) h0
    · intro hmem
      have h2 := hmem.2
      rw [beq_iff_eq, initDeg_eq] at h2
      rw [notFromCount_nil_acc conns k]
      exact_mod_cast h2
  · intro k hk
    exact absurd hk (List.not_mem_nil k)
  · intro c _ hd
    exact absurd hd (List.not_mem_nil _)

/-- Correctness of `ModuleGraph::rebuildTopologicalSort` on an acyclic,
well-referenced graph: the computed order is a permutation of the node
keys and places every connection's source before its destination. -/
lemma rebuildTopologicalSort_correct (keys : List Int) (conns : List NodeConnection)
    (hnd : keys.Nodup) (hsorted : keys.Pairwise (· < ·))
    (hvalid : ∀ c ∈ conns, c.sourceNodeId ∈ keys ∧ c.destNodeId ∈ keys)
    (hacyc : Acyclic conns) :
    (rebuildTopologicalSort keys conns).Perm keys ∧
    (∀ c ∈ conns, appearsBefore c.sourceNodeId c.destNodeId
      (rebuildTopologicalSort keys conns)) := by
  unfold rebuildTopologicalSort
  rw [kahnKeys_eq keys conns hsorted (fun c hc => (hvalid c hc).2)]
  exact kahnLoop_spec conns keys hnd hvalid hacyc (keys.length + 1) _ _ []
    (kahnInv_init conns keys hnd) (by simp)

lemma addNode_sorted_eq (g : ModuleGraph) (node : AudioNode) :
    (g.addNode node).sortedNodeIds
      = rebuildTopologicalSort (nodeKeys (g.addNode node)) (g.addNode node).connections :=
  rfl

lemma addConnection_sorted_eq (g : ModuleGraph) (c : NodeConnection) :
    (g.addConnection c).sortedNodeIds
      = rebuildTopologicalSort (nodeKeys (g.addConnection c)) (g.addConnection c).connections :=
  rfl

lemma addNode_keys_eq (g : ModuleGraph) (node : AudioNode) :
    nodeKeys (g.addNode node) = nodeKeys g ++ [g.nextNodeId] := by
  unfold ModuleGraph.addNode ModuleGraph.rebuild nodeKeys
  simp

lemma applyOp_shape (g : ModuleGraph) (op : GraphOp) (h : graphShape g) :
    graphShape (applyOp g op) := by
  obtain ⟨⟨nn, hkeys, hnext⟩, _⟩ := h
  cases op with
  | node node =>
    refine ⟨⟨nn + 1, ?_, ?_⟩, addNode_sorted_eq g node⟩
    · rw [show nodeKeys (applyOp g (GraphOp.node node))
            = nodeKeys g ++ [g.nextNodeId] from addNode_keys_eq g node]
      rw [hkeys, hnext, List.range_succ, List.map_append]
      rfl
    · show g.nextNodeId + 1 = _
      rw [hnext]
      push_cast
      ring
  | conn c =>
    exact ⟨⟨nn, hkeys, hnext⟩, addConnection_sorted_eq g c⟩

lemma buildDefaultGraph_shape (fs : String → Buf → Buf) :
    graphShape (buildDefaultGraph fs) := by
  unfold buildDefaultGraph
  have h1 : ∀ (ts : List String) (g : ModuleGraph), graphShape g →
      graphShape (ts.foldl
        (fun g t => g.addNode { enabled := true, ntype := t, process := fs t }) g) := by
    intro ts
    induction ts with
    | nil => intro g h; exact h
    | cons t rest ih =>
      intro g h
      exact ih _ (applyOp_shape g (GraphOp.node _) h)
  have h2 : ∀ (l : List ℕ) (g : ModuleGraph), graphShape g →
      graphShape (l.foldl
        (fun g i => g.addConnection (serialConn (Int.ofNat i) (Int.ofNat i + 1))) g) := by
    intro l
    induction l with
    | nil => intro g h; exact h
    | cons i rest ih =>
      intro g h
      exact ih _ (applyOp_shape g (GraphOp.conn _) h)
  exact h2 _ _ (h1 _ _ ⟨⟨0, rfl, rfl⟩, rfl⟩)

lemma runOps_shape (fs : String → Buf → Buf) (ops : List GraphOp) :
    graphShape (runOps fs ops) := by
  unfold runOps
  have hgen : ∀ (l : List GraphOp) (g : ModuleGraph), graphShape g →
      graphShape (l.foldl applyOp g) := by
    intro l
    induction l with
    | nil => intro g h; exact h
    | cons op rest ih =>
      intro g h
      exact ih (applyOp g op) (applyOp_shape g op h)
  exact hgen ops (buildDefaultGraph fs) (buildDefaultGraph_shape fs)

/-- Connection sets whose every edge increases the node id are acyclic. -/
lemma acyclic_of_forward (conns : List NodeConnection)
    (h : ∀ c ∈ conns, c.sourceNodeId < c.destNodeId) : Acyclic conns := by
  intro n hcyc
  have mono : ∀ a b : Int, Relation.TransGen (connRel conns) a b → a < b := by
    intro a b hab
    induction hab with
    | single hr =>
      obtain ⟨c, hc, h1, h2⟩ := hr
      rw [← h1, ← h2]
      exact h c hc
    | tail _ hr ih =>
      obtain ⟨c, hc, h1, h2⟩ := hr
      have h3 := h c hc
      omega
  exact lt_irrefl n (mono n n hcyc)

/-- C2: after any sequence of `addNode` / `addConnection` calls on a
freshly constructed `ModuleGraph` whose resulting connection set is
acyclic (and references only present ids, as the data-model invariant
requires), the recomputed `sortedNodeIds` contains every node exactly
once — it is a permutation of the node-id set — and is a valid
topological order: every connection's source appears in it strictly
before its destination. -/
theorem runOps_topological_order (fs : String → Buf → Buf) (ops : List GraphOp)
    (hvalid : ∀ c ∈ (runOps fs ops).connections,
      c.sourceNodeId ∈ nodeKeys (runOps fs ops)
        ∧ c.destNodeId ∈ nodeKeys (runOps fs ops))
    (hacyc : Acyclic (runOps fs ops).connections) :
    (runOps fs ops).sortedNodeIds.Perm (nodeKeys (runOps fs ops)) ∧
    (∀ c ∈ (runOps fs ops).connections,
      appearsBefore c.sourceNodeId c.destNodeId (runOps fs ops).sortedNodeIds) := by
  obtain ⟨⟨nn, hkeys, _⟩, hsorted⟩ := runOps_shape fs ops
  have hnd : (nodeKeys (runOps fs ops)).Nodup := by
    rw [hkeys]
    exact (List.nodup_range nn).map Nat.cast_injective
  have hpw : (nodeKeys (runOps fs ops)).Pairwise (· < ·) := by
    rw [hkeys]
    refine List.Pairwise.map _ ?_ (List.pairwise_lt_range nn)
    intro a b hab
    exact_mod_cast hab
  rw [hsorted]
  exact rebuildTopologicalSort_correct _ _ hnd hpw hvalid hacyc

/-- Witness for C2 at the freshly constructed default graph (no
further edits): ten nodes, nine serial connections. -/
theorem runOps_topological_order_witness :
    (runOps idEnv []).sortedNodeIds.Perm (nodeKeys (runOps idEnv [])) ∧
    (∀ c ∈ (runOps idEnv []).connections,
      appearsBefore c.sourceNodeId c.destNodeId (runOps idEnv []).sortedNodeIds) :=
  runOps_topological_order idEnv [] (by decide)
    (acyclic_of_forward _ (by decide))

end SNOT
